import Mathlib

/-!
Shallow embedding of the `masklint` tool (src/main.rs, src/handlers.rs).

The binary is built from `main.rs` alone (it declares no `mod handlers`), so the
handler definitions that execute are the ones inlined in `main.rs`; the extra
`Nushell` handler of `handlers.rs` is embedded as well, since the repository
defines it, but the dispatch in `main.rs` never selects it.

External effects are made explicit:
  * the filesystem is a list of `(path, contents)` pairs threaded through the
    walk (`File::options().create_new(true)` fails when the path is present);
  * each external analyzer invocation is an oracle `String → Except IoError
    String` giving, per materialized file path, either an I/O failure (e.g. the
    binary missing from `$PATH`) or the captured stdout of the process;
  * printing to the terminal (and its coloring) is dropped;
  * Rust's string primitives (`str::replace`, `str::trim`, `str::lines`,
    `str::starts_with`, `str::contains`) are modelled by the structurally
    recursive `rust*` functions below, over LF-separated text (the stdout
    strings of interest carry no `\r`, and all patterns used are nonempty).
-/

namespace Masklint

/-- Prefix test on character lists; `rustStartsWith` below builds on it. -/
def listStartsWith : List Char → List Char → Bool
  | _, [] => true
  | [], _ :: _ => false
  | a :: s, b :: p => a = b && listStartsWith s p

/-- Left-to-right, non-overlapping replacement of a nonempty pattern: on a
match, the replacement is emitted and the matched characters are skipped
(the counter argument counts characters still to skip). -/
def listReplaceAux (pat rep : List Char) : List Char → Nat → List Char
  | [], _ => []
  | _ :: s, Nat.succ k => listReplaceAux pat rep s k
  | a :: s, 0 =>
    if 0 < pat.length && listStartsWith (a :: s) pat then
      rep ++ listReplaceAux pat rep s (pat.length - 1)
    else a :: listReplaceAux pat rep s 0

/-- Model of Rust `str::replace`: replace every (non-overlapping, leftmost)
occurrence of `pat` by `rep`. All patterns this program uses are nonempty. -/
def rustReplace (s pat rep : String) : String :=
  ⟨listReplaceAux pat.data rep.data s.data 0⟩

/-- Model of Rust `str::trim`: strip leading and trailing whitespace. -/
def rustTrim (s : String) : String :=
  ⟨((s.data.dropWhile Char.isWhitespace).reverse.dropWhile Char.isWhitespace).reverse⟩

/-- Split on a separator character, keeping empty segments. -/
def listSplitOnChar (c : Char) : List Char → List (List Char)
  | [] => [[]]
  | a :: s =>
    match listSplitOnChar c s, decide (a = c) with
    | r, true => [] :: r
    | [], false => [[a]]
    | g :: gs, false => (a :: g) :: gs

/-- Model of Rust `str::lines` for LF-separated text without a trailing
newline (every use in this program is on trimmed stdout, or is followed by a
final trim that cancels the difference on a trailing empty segment). -/
def rustLines (s : String) : List String :=
  (listSplitOnChar '\n' s.data).map String.mk

/-- Model of Rust `str::starts_with` for a string pattern. -/
def rustStartsWith (s pat : String) : Bool :=
  listStartsWith s.data pat.data

/-- Occurrence test for a character-list pattern anywhere in a list. -/
def listContainsSeq (pat : List Char) : List Char → Bool
  | [] => pat.isEmpty
  | a :: s => listStartsWith (a :: s) pat || listContainsSeq pat s

/-- Model of Rust `str::contains` for a string pattern. -/
def rustContains (s pat : String) : Bool :=
  listContainsSeq pat.data s.data

/-- `mask_parser::maskfile::Script`: executor tag plus raw script body. -/
structure Script where
  executor : String
  source : String
deriving DecidableEq, Repr

/-- `mask_parser::maskfile::Command`: a named node with an optional script and
ordered subcommands. -/
inductive Command where
  | mk (name : String) (script : Option Script) (subcommands : List Command)

/-- `LintResultType` (main.rs lines 148-152). -/
inductive LintResultType where
  | Warning
  | Findings
deriving DecidableEq, Repr

/-- `LintResult` (main.rs lines 154-158). -/
structure LintResult where
  message : String
  result_type : LintResultType
deriving DecidableEq, Repr

/-- `LintResult::warning` (main.rs lines 161-163). -/
def LintResult.warning (message : String) : LintResult :=
  { message := message, result_type := .Warning }

/-- `LintResult::findings` (main.rs lines 165-167). -/
def LintResult.findings (message : String) : LintResult :=
  { message := message, result_type := .Findings }

/-- The `std::io::Error` values relevant to this program: `ErrorKind::NotFound`
(distinguished by `process_command`), `ErrorKind::AlreadyExists` (raised by
`File::options().create_new(true)` when the path exists), anything else. -/
inductive IoError where
  | notFound
  | alreadyExists (path : String)
  | other (msg : String)
deriving DecidableEq, Repr

/-- The handler variants. `main.rs` defines `Catchall`, `Shellcheck`, `Ruff`
and `Rubocop`; `handlers.rs` additionally defines `Nushell`. -/
inductive Handler where
  | Catchall
  | Shellcheck
  | Ruff
  | Rubocop
  | Nushell
deriving DecidableEq, Repr

/-- `file_extension`: the trait default is `""` (main.rs lines 171-173),
overridden by `Shellcheck` (".sh"), `Ruff` (".py"), `Rubocop` (".rb") and, in
handlers.rs, `Nushell` (".nu"). -/
def Handler.file_extension : Handler → String
  | .Catchall => ""
  | .Shellcheck => ".sh"
  | .Ruff => ".py"
  | .Rubocop => ".rb"
  | .Nushell => ".nu"

/-- The `Display` impls: "catchall", "shellcheck", "ruff", "rubocop",
"nushell". -/
def Handler.display : Handler → String
  | .Catchall => "catchall"
  | .Shellcheck => "shellcheck"
  | .Ruff => "ruff"
  | .Rubocop => "rubocop"
  | .Nushell => "nushell"

/-- `content`: the trait default returns `script.source` unchanged (main.rs
lines 174-176); `Shellcheck` overrides it to prepend a shebang (main.rs lines
212-216). The Rust signature is `Result<String, io::Error>`. -/
def Handler.content (h : Handler) (script : Script) : Except IoError String :=
  match h with
  | .Shellcheck => .ok ("#!/bin/usr/env " ++ script.executor ++ "\n" ++ script.source)
  | _ => .ok script.source

/-- The handler dispatch in `process_command` (main.rs lines 98-103): a match
on `script.executor.as_str()` with arms for `"sh" | "bash"`, `"py" | "python"`,
`"rb" | "ruby"` and a `_ => &Catchall {}` fallback. -/
def selectHandler (executor : String) : Handler :=
  if executor = "sh" ∨ executor = "bash" then .Shellcheck
  else if executor = "py" ∨ executor = "python" then .Ruff
  else if executor = "rb" ∨ executor = "ruby" then .Rubocop
  else .Catchall

/-- The loop body of `Ruff::execute` (main.rs lines 238-246): collect lines,
breaking at the first line that starts with `"Found "`, rewriting
`"<path>:"` to `"line "` in each collected line. -/
def ruff_valid_lines (path : String) : List String → List String
  | [] => []
  | line :: rest =>
    if rustStartsWith line "Found " then []
    else rustReplace line (path ++ ":") "line " :: ruff_valid_lines path rest

/-- `Shellcheck::execute` normalization (main.rs lines 205-211): trimmed
stdout with every `"<path> "` occurrence removed, wrapped as findings. -/
def shellcheck_normalize (path stdout : String) : LintResult :=
  LintResult.findings (rustReplace (rustTrim stdout) (path ++ " ") "")

/-- `Ruff::execute` normalization (main.rs lines 230-248): the collected lines
joined by newlines and trimmed, wrapped as findings. -/
def ruff_normalize (path stdout : String) : LintResult :=
  LintResult.findings
    (rustTrim (String.intercalate "\n" (ruff_valid_lines path (rustLines (rustTrim stdout)))))

/-- `Rubocop::execute` normalization (main.rs lines 262-276): drop lines
containing `"1 file inspected"`, join, trim, rewrite `"<path>:"` to
`"line "`, wrap as findings. -/
def rubocop_normalize (path stdout : String) : LintResult :=
  LintResult.findings
    (rustReplace
      (rustTrim (String.intercalate "\n"
        ((rustLines stdout).filter (fun l => ! rustContains l "1 file inspected"))))
      (path ++ ":") "line ")

/-- `Nushell::execute` normalization (handlers.rs lines 151-161): trimmed
stdout verbatim, wrapped as findings. -/
def nushell_normalize (stdout : String) : LintResult :=
  LintResult.findings (rustTrim stdout)

/-- `execute` for each handler, with the external process abstracted by its
outcome `out` (the `Command::new(...).output()` result: an `IoError`, or the
captured stdout). `Catchall::execute` (main.rs lines 187-191) spawns nothing
and unconditionally returns the fixed warning; every other variant propagates
a process-spawn failure via `?` and normalizes the stdout. -/
def Handler.executeWith (h : Handler) (path : String) (out : Except IoError String) :
    Except IoError LintResult :=
  match h with
  | .Catchall => .ok (LintResult.warning "no linter found for target")
  | .Shellcheck =>
    match out with
    | .error e => .error e
    | .ok stdout => .ok (shellcheck_normalize path stdout)
  | .Ruff =>
    match out with
    | .error e => .error e
    | .ok stdout => .ok (ruff_normalize path stdout)
  | .Rubocop =>
    match out with
    | .error e => .error e
    | .ok stdout => .ok (rubocop_normalize path stdout)
  | .Nushell =>
    match out with
    | .error e => .error e
    | .ok stdout => .ok (nushell_normalize stdout)

/-- The filesystem visible to the walk: the files already present in the
output directory, as `(path, contents)` pairs in creation order. -/
abbrev FS := List (String × String)

/-- `ProcessCommandContext` (main.rs lines 77-81). -/
structure ProcessCommandContext where
  out_dir : String
  is_dump : Bool
  no_warnings : Bool
deriving DecidableEq, Repr

/-- The `anyhow::Error` values the walk can produce: a propagated
`io::Error` (via `?` / `anyhow!(e)`), or a message built with `anyhow!("...")`
such as the missing-executable message and main's summary line. -/
inductive AnyhowError where
  | ioErr (e : IoError)
  | msg (s : String)
deriving DecidableEq, Repr

instance {ε α : Type _} [DecidableEq ε] [DecidableEq α] : DecidableEq (Except ε α) :=
  fun a b =>
    match a, b with
    | .ok x, .ok y => decidable_of_iff (x = y) (by simp)
    | .error x, .error y => decidable_of_iff (x = y) (by simp)
    | .ok _, .error _ => isFalse (by simp)
    | .error _, .ok _ => isFalse (by simp)

/-- The full command name (main.rs lines 90-93): parent name, a space, and the
node's own name, or just the node's name at the root. -/
def full_name (parent_name : Option String) (name : String) : String :=
  match parent_name with
  | some parent => parent ++ " " ++ name
  | none => name

/-- The materialized file path (main.rs lines 105-107): spaces of the full
command name become underscores, the handler's extension is appended, and the
result is joined onto the output directory. -/
def script_file_path (out_dir fullname : String) (handler : Handler) : String :=
  out_dir ++ "/" ++ (rustReplace fullname " " "_" ++ handler.file_extension)

/-- The straight-line body of `process_command` for the node's own script
(main.rs lines 95-137): resolve the handler, derive the file path, create the
file exclusively (`create_new(true)`: `AlreadyExists` when the path is
occupied), write the transformed content, and — in lint mode — run the
handler's `execute` and classify its result. Returns the node's own findings
count (0 or 1) and the filesystem after the step. -/
def script_step (oracle : String → Except IoError String)
    (context : ProcessCommandContext) (fs : FS) (full_command_name : String)
    (script : Option Script) : Except AnyhowError (Nat × FS) :=
  match script with
  | none => .ok (0, fs)
  | some script =>
    let language_handler := selectHandler script.executor
    let file_path := script_file_path context.out_dir full_command_name language_handler
    if fs.any (fun entry => entry.1 = file_path) then
      .error (.ioErr (.alreadyExists file_path))
    else
      match language_handler.content script with
      | .error e => .error (.ioErr e)
      | .ok content =>
        let fs1 : FS := fs ++ [(file_path, content)]
        if context.is_dump then .ok (0, fs1)
        else
          match language_handler.executeWith file_path (oracle file_path) with
          | .error .notFound =>
            .error (.msg ("executable for " ++ language_handler.display
              ++ " not found in $PATH"))
          | .error e => .error (.ioErr e)
          | .ok lint_result =>
            if lint_result.message = "" then .ok (0, fs1)
            else
              match lint_result.result_type with
              | .Findings => .ok (1, fs1)
              | .Warning => .ok (0, fs1)

mutual

/-- `process_command` (main.rs lines 84-146). `oracle` gives each external
analyzer invocation's outcome, keyed by the materialized file path; the
returned pair is the findings count and the filesystem after the call;
printing is dropped. -/
def process_command (oracle : String → Except IoError String)
    (context : ProcessCommandContext) (fs : FS) (command : Command)
    (parent_name : Option String) : Except AnyhowError (Nat × FS) :=
  match command with
  | .mk name script subcommands =>
    let full_command_name := full_name parent_name name
    match script_step oracle context fs full_command_name script with
    | .error e => .error e
    | .ok (findings_count, fs1) =>
      match process_commands oracle context fs1 subcommands (some full_command_name) with
      | .error e => .error e
      | .ok (sub_count, fs2) => .ok (findings_count + sub_count, fs2)
termination_by structural command

/-- The `for subcmd in command.subcommands` loop (main.rs lines 140-144) and,
with `parent_name = none`, the top-level loop of `main` (main.rs lines 65-67):
process each command in order, summing the counts, aborting on the first
error. -/
def process_commands (oracle : String → Except IoError String)
    (context : ProcessCommandContext) (fs : FS) (commands : List Command)
    (parent_name : Option String) : Except AnyhowError (Nat × FS) :=
  match commands with
  | [] => .ok (0, fs)
  | c :: rest =>
    match process_command oracle context fs c parent_name with
    | .error e => .error e
    | .ok (n, fs1) =>
      match process_commands oracle context fs1 rest parent_name with
      | .error e => .error e
      | .ok (m, fs2) => .ok (n + m, fs2)
termination_by structural commands

end

/-- The summary message of `main` (main.rs lines 70-71), before terminal
coloring: the count, `"file"` pluralized, `"with lint failures."`. -/
def lint_failure_message (total_findings : Nat) : String :=
  toString total_findings ++ " file" ++ (if total_findings = 1 then "" else "s")
    ++ " with lint failures."

/-- The tail of `main` (main.rs lines 64-74): a traversal error propagates;
otherwise a positive total findings count becomes the summary error and a zero
count exits cleanly (`Ok(())` maps to process exit code 0, `Err` to a nonzero
exit). Terminal coloring of the message is dropped. -/
def main_result (run : Except AnyhowError (Nat × FS)) : Except AnyhowError Unit :=
  match run with
  | .error e => .error e
  | .ok (total_findings, _) =>
    if total_findings > 0 then .error (.msg (lint_failure_message total_findings))
    else .ok ()

/-- Stated from the specification, for comparison with the walk: a node's own
contribution to the findings count — 1 exactly when the node bears a script
and its handler's `execute` returns a non-empty `Findings`-kind result, 0
otherwise. -/
def spec_node_findings (oracle : String → Except IoError String) (out_dir : String)
    (fullname : String) (script : Option Script) : Nat :=
  match script with
  | none => 0
  | some s =>
    let handler := selectHandler s.executor
    let path := script_file_path out_dir fullname handler
    match handler.executeWith path (oracle path) with
    | .ok r => if r.message ≠ "" ∧ r.result_type = LintResultType.Findings then 1 else 0
    | .error _ => 0

mutual

/-- Stated from the specification: the number of script-bearing nodes in the
tree whose handler's `execute` returns a non-empty `Findings`-kind result. -/
def spec_findings_count (oracle : String → Except IoError String) (out_dir : String)
    (parent : Option String) (command : Command) : Nat :=
  match command with
  | .mk name script subcommands =>
    spec_node_findings oracle out_dir (full_name parent name) script
      + spec_findings_count_list oracle out_dir (some (full_name parent name)) subcommands
termination_by structural command

/-- `spec_findings_count` summed over a forest. -/
def spec_findings_count_list (oracle : String → Except IoError String) (out_dir : String)
    (parent : Option String) (commands : List Command) : Nat :=
  match commands with
  | [] => 0
  | c :: cs =>
    spec_findings_count oracle out_dir parent c
      + spec_findings_count_list oracle out_dir parent cs
termination_by structural commands

end

/-- Every handler's `content` is an `Ok`: the trait default and the single
override both wrap a pure string. -/
theorem content_isOk (h : Handler) (s : Script) : ∃ c, h.content s = Except.ok c := by
  cases h <;> exact ⟨_, rfl⟩

/-- In lint mode, a successful script step contributes exactly the
spec-described count: 1 for a non-empty `Findings` execute result, 0
otherwise. -/
theorem script_step_count (o : String → Except IoError String)
    (ctx : ProcessCommandContext) (fs : FS) (fcn : String) (sc : Option Script)
    (n : Nat) (fs₁ : FS) (hd : ctx.is_dump = false)
    (h : script_step o ctx fs fcn sc = Except.ok (n, fs₁)) :
    n = spec_node_findings o ctx.out_dir fcn sc := by
  cases sc with
  | none =>
    simp only [script_step] at h
    simp only [spec_node_findings]
    exact (Prod.mk.injEq _ _ _ _ ▸ (Except.ok.injEq _ _ ▸ h)).1.symm
  | some s =>
    simp only [script_step, hd] at h
    simp only [spec_node_findings]
    split at h
    · exact absurd h (by simp)
    · obtain ⟨c, hc⟩ := content_isOk (selectHandler s.executor) s
      rw [hc] at h
      simp only [Bool.false_eq_true, if_false] at h
      cases heq' : (selectHandler s.executor).executeWith
          (script_file_path ctx.out_dir fcn (selectHandler s.executor))
          (o (script_file_path ctx.out_dir fcn (selectHandler s.executor))) with
      | error e =>
        rw [heq'] at h
        cases e <;> simp at h
      | ok r =>
        rw [heq'] at h
        dsimp only at h ⊢
        split at h
        next hmsg =>
          simp only [Except.ok.injEq, Prod.mk.injEq] at h
          simp only [hmsg, ne_eq, not_true_eq_false, false_and, if_false]
          omega
        next hmsg =>
          split at h
          next hty =>
            simp only [Except.ok.injEq, Prod.mk.injEq] at h
            simp only [ne_eq, hmsg, not_false_eq_true, hty, and_self, if_true]
            omega
          next hty =>
            simp only [Except.ok.injEq, Prod.mk.injEq] at h
            rw [if_neg (by simp [hty])]
            omega

/-- In lint mode, the count returned by a successful walk of one command tree
equals the spec-described number of script-bearing nodes whose execute gave a
non-empty findings result. -/
theorem process_command_count (o : String → Except IoError String)
    (ctx : ProcessCommandContext) (hd : ctx.is_dump = false) :
    ∀ c : Command, ∀ fs p n fs',
      process_command o ctx fs c p = Except.ok (n, fs') →
      n = spec_findings_count o ctx.out_dir p c := by
  intro c
  refine @Command.rec
    (fun c => ∀ fs p n fs', process_command o ctx fs c p = Except.ok (n, fs') →
      n = spec_findings_count o ctx.out_dir p c)
    (fun cs => ∀ fs p n fs', process_commands o ctx fs cs p = Except.ok (n, fs') →
      n = spec_findings_count_list o ctx.out_dir p cs)
    ?_ ?_ ?_ c
  · intro name script subs ih fs p n fs' h
    simp only [process_command] at h
    cases hs : script_step o ctx fs (full_name p name) script with
    | error e => rw [hs] at h; exact absurd h (by simp)
    | ok v =>
      obtain ⟨n1, fs1⟩ := v
      rw [hs] at h
      dsimp only at h
      cases hsub : process_commands o ctx fs1 subs (some (full_name p name)) with
      | error e => rw [hsub] at h; exact absurd h (by simp)
      | ok w =>
        obtain ⟨n2, fs2⟩ := w
        rw [hsub] at h
        dsimp only at h
        have h1 := script_step_count o ctx fs (full_name p name) script n1 fs1 hd hs
        have h2 := ih fs1 (some (full_name p name)) n2 fs2 hsub
        simp only [Except.ok.injEq, Prod.mk.injEq] at h
        simp only [spec_findings_count]
        omega
  · intro fs p n fs' h
    simp only [process_commands, Except.ok.injEq, Prod.mk.injEq] at h
    simp only [spec_findings_count_list]
    omega
  · intro chead ctail ihc ihcs fs p n fs' h
    simp only [process_commands] at h
    cases hc : process_command o ctx fs chead p with
    | error e => rw [hc] at h; exact absurd h (by simp)
    | ok v =>
      obtain ⟨n1, fs1⟩ := v
      rw [hc] at h
      dsimp only at h
      cases hcs : process_commands o ctx fs1 ctail p with
      | error e => rw [hcs] at h; exact absurd h (by simp)
      | ok w =>
        obtain ⟨n2, fs2⟩ := w
        rw [hcs] at h
        dsimp only at h
        have h1 := ihc fs p n1 fs1 hc
        have h2 := ihcs fs1 p n2 fs2 hcs
        simp only [Except.ok.injEq, Prod.mk.injEq] at h
        simp only [spec_findings_count_list]
        omega

/-- In lint mode, the count of a successful walk of a forest equals the spec
count summed over the forest. -/
theorem process_commands_count (o : String → Except IoError String)
    (ctx : ProcessCommandContext) (hd : ctx.is_dump = false) :
    ∀ cs : List Command, ∀ fs p n fs',
      process_commands o ctx fs cs p = Except.ok (n, fs') →
      n = spec_findings_count_list o ctx.out_dir p cs := by
  intro cs
  induction cs with
  | nil =>
    intro fs p n fs' h
    simp only [process_commands, Except.ok.injEq, Prod.mk.injEq] at h
    simp only [spec_findings_count_list]
    omega
  | cons chead ctail ih =>
    intro fs p n fs' h
    simp only [process_commands] at h
    cases hc : process_command o ctx fs chead p with
    | error e => rw [hc] at h; exact absurd h (by simp)
    | ok v =>
      obtain ⟨n1, fs1⟩ := v
      rw [hc] at h
      dsimp only at h
      cases hcs : process_commands o ctx fs1 ctail p with
      | error e => rw [hcs] at h; exact absurd h (by simp)
      | ok w =>
        obtain ⟨n2, fs2⟩ := w
        rw [hcs] at h
        dsimp only at h
        have h1 := process_command_count o ctx hd chead fs p n1 fs1 hc
        have h2 := ih fs1 p n2 fs2 hcs
        simp only [Except.ok.injEq, Prod.mk.injEq] at h
        simp only [spec_findings_count_list]
        omega

/-- Walking a concatenated forest is walking the first part, then the second
from the resulting filesystem, summing the counts. -/
theorem process_commands_append (o : String → Except IoError String)
    (ctx : ProcessCommandContext) (xs ys : List Command) :
    ∀ fs p, process_commands o ctx fs (xs ++ ys) p =
      match process_commands o ctx fs xs p with
      | .error e => .error e
      | .ok (n, fs1) =>
        match process_commands o ctx fs1 ys p with
        | .error e => .error e
        | .ok (m, fs2) => .ok (n + m, fs2) := by
  induction xs with
  | nil =>
    intro fs p
    simp only [List.nil_append, process_commands]
    cases process_commands o ctx fs ys p with
    | error e => rfl
    | ok w => obtain ⟨m, fs2⟩ := w; simp
  | cons chead ctail ih =>
    intro fs p
    simp only [List.cons_append, process_commands]
    cases process_command o ctx fs chead p with
    | error e => rfl
    | ok v =>
      obtain ⟨n1, fs1⟩ := v
      dsimp only
      simp only [List.append_eq]
      rw [ih fs1 p]
      cases process_commands o ctx fs1 ctail p with
      | error e => rfl
      | ok w =>
        obtain ⟨n2, fs2⟩ := w
        dsimp only
        cases process_commands o ctx fs2 ys p with
        | error e => rfl
        | ok u =>
          obtain ⟨n3, fs3⟩ := u
          dsimp only
          rw [Nat.add_assoc]

/-- The running total over a traversal is monotone: the total after a prefix
of the forest never exceeds the total after the whole forest. -/
theorem process_commands_prefix_le (o : String → Except IoError String)
    (ctx : ProcessCommandContext) (xs ys : List Command) (fs : FS)
    (p : Option String) (n N : Nat) (fs1 fs2 : FS)
    (hpre : process_commands o ctx fs xs p = Except.ok (n, fs1))
    (hall : process_commands o ctx fs (xs ++ ys) p = Except.ok (N, fs2)) :
    n ≤ N := by
  rw [process_commands_append o ctx xs ys fs p, hpre] at hall
  dsimp only at hall
  cases hys : process_commands o ctx fs1 ys p with
  | error e => rw [hys] at hall; exact absurd hall (by simp)
  | ok w =>
    obtain ⟨m, fs3⟩ := w
    rw [hys] at hall
    dsimp only at hall
    simp only [Except.ok.injEq, Prod.mk.injEq] at hall
    omega

/-- For a handler other than `Catchall`, `execute` propagates the external
process failure unchanged (the `?` on `Command::new(..).output()`). -/
theorem executeWith_error (h : Handler) (hne : h ≠ Handler.Catchall)
    (path : String) (e : IoError) :
    h.executeWith path (Except.error e) = Except.error e := by
  cases h <;> first | rfl | exact absurd rfl hne

/-- In dump mode, the only way the script step can fail is exclusive file
creation hitting an existing path. -/
theorem script_step_dump_error (o : String → Except IoError String)
    (ctx : ProcessCommandContext) (fs : FS) (fcn : String) (sc : Option Script)
    (e : AnyhowError) (hdump : ctx.is_dump = true)
    (h : script_step o ctx fs fcn sc = Except.error e) :
    ∃ path, e = AnyhowError.ioErr (IoError.alreadyExists path) := by
  cases sc with
  | none => exact absurd h (by simp [script_step])
  | some s =>
    simp only [script_step, hdump] at h
    split at h
    · exact ⟨_, (Except.error.inj h).symm⟩
    · obtain ⟨c, hc⟩ := content_isOk (selectHandler s.executor) s
      rw [hc] at h
      simp at h

/-- In dump mode, any failure of the walk is a file-creation collision. -/
theorem process_command_dump_error (o : String → Except IoError String)
    (ctx : ProcessCommandContext) (hdump : ctx.is_dump = true) :
    ∀ c : Command, ∀ fs p e, process_command o ctx fs c p = Except.error e →
      ∃ path, e = AnyhowError.ioErr (IoError.alreadyExists path) := by
  intro c
  refine @Command.rec
    (fun c => ∀ fs p e, process_command o ctx fs c p = Except.error e →
      ∃ path, e = AnyhowError.ioErr (IoError.alreadyExists path))
    (fun cs => ∀ fs p e, process_commands o ctx fs cs p = Except.error e →
      ∃ path, e = AnyhowError.ioErr (IoError.alreadyExists path))
    ?_ ?_ ?_ c
  · intro name script subs ih fs p e h
    simp only [process_command] at h
    cases hs : script_step o ctx fs (full_name p name) script with
    | error e1 =>
      rw [hs] at h
      dsimp only at h
      exact (Except.error.inj h) ▸ script_step_dump_error o ctx fs _ script e1 hdump hs
    | ok v =>
      obtain ⟨n1, fs1⟩ := v
      rw [hs] at h
      dsimp only at h
      cases hsub : process_commands o ctx fs1 subs (some (full_name p name)) with
      | error e2 =>
        rw [hsub] at h
        dsimp only at h
        exact (Except.error.inj h) ▸ ih fs1 (some (full_name p name)) e2 hsub
      | ok w =>
        obtain ⟨n2, fs2⟩ := w
        rw [hsub] at h
        simp at h
  · intro fs p e h
    exact absurd h (by simp [process_commands])
  · intro chead ctail ihc ihcs fs p e h
    simp only [process_commands] at h
    cases hc : process_command o ctx fs chead p with
    | error e1 =>
      rw [hc] at h
      dsimp only at h
      exact (Except.error.inj h) ▸ ihc fs p e1 hc
    | ok v =>
      obtain ⟨n1, fs1⟩ := v
      rw [hc] at h
      dsimp only at h
      cases hcs : process_commands o ctx fs1 ctail p with
      | error e2 =>
        rw [hcs] at h
        dsimp only at h
        exact (Except.error.inj h) ▸ ihcs fs1 p e2 hcs
      | ok w =>
        obtain ⟨n2, fs2⟩ := w
        rw [hcs] at h
        simp at h

/-- A successful script step on a script-bearing node writes exactly one new
file, at the derived path, holding the handler-transformed content. -/
theorem script_step_some_ok (o : String → Except IoError String)
    (ctx : ProcessCommandContext) (fs : FS) (fcn : String) (s : Script)
    (n : Nat) (fs1 : FS)
    (h : script_step o ctx fs fcn (some s) = Except.ok (n, fs1)) :
    ∃ content, (selectHandler s.executor).content s = Except.ok content ∧
      fs1 = fs ++ [(script_file_path ctx.out_dir fcn (selectHandler s.executor), content)] := by
  simp only [script_step] at h
  split at h
  · exact absurd h (by simp)
  · obtain ⟨c, hc⟩ := content_isOk (selectHandler s.executor) s
    rw [hc] at h
    dsimp only at h
    refine ⟨c, hc, ?_⟩
    split at h
    · exact ((Prod.mk.injEq _ _ _ _).mp (Except.ok.inj h)).2.symm
    · cases heq' : (selectHandler s.executor).executeWith
          (script_file_path ctx.out_dir fcn (selectHandler s.executor))
          (o (script_file_path ctx.out_dir fcn (selectHandler s.executor))) with
      | error e =>
        rw [heq'] at h
        cases e <;> simp at h
      | ok r =>
        rw [heq'] at h
        dsimp only at h
        split at h
        · exact ((Prod.mk.injEq _ _ _ _).mp (Except.ok.inj h)).2.symm
        · split at h <;>
            exact ((Prod.mk.injEq _ _ _ _).mp (Except.ok.inj h)).2.symm

/-- A script step only appends to the filesystem. -/
theorem script_step_fs_append (o : String → Except IoError String)
    (ctx : ProcessCommandContext) (fs : FS) (fcn : String) (sc : Option Script)
    (n : Nat) (fs1 : FS)
    (h : script_step o ctx fs fcn sc = Except.ok (n, fs1)) :
    ∃ ext, fs1 = fs ++ ext := by
  cases sc with
  | none =>
    simp only [script_step, Except.ok.injEq, Prod.mk.injEq] at h
    exact ⟨[], by simp [h.2]⟩
  | some s =>
    obtain ⟨c, -, hfs⟩ := script_step_some_ok o ctx fs fcn s n fs1 h
    exact ⟨_, hfs⟩

/-- The walk only appends to the filesystem: every file present before a
(successful) walk is still present, unchanged, after it. -/
theorem process_command_fs_append (o : String → Except IoError String)
    (ctx : ProcessCommandContext) :
    ∀ c : Command, ∀ fs p n fs', process_command o ctx fs c p = Except.ok (n, fs') →
      ∃ ext, fs' = fs ++ ext := by
  intro c
  refine @Command.rec
    (fun c => ∀ fs p n fs', process_command o ctx fs c p = Except.ok (n, fs') →
      ∃ ext, fs' = fs ++ ext)
    (fun cs => ∀ fs p n fs', process_commands o ctx fs cs p = Except.ok (n, fs') →
      ∃ ext, fs' = fs ++ ext)
    ?_ ?_ ?_ c
  · intro name script subs ih fs p n fs' h
    simp only [process_command] at h
    cases hs : script_step o ctx fs (full_name p name) script with
    | error e => rw [hs] at h; exact absurd h (by simp)
    | ok v =>
      obtain ⟨n1, fs1⟩ := v
      rw [hs] at h
      dsimp only at h
      cases hsub : process_commands o ctx fs1 subs (some (full_name p name)) with
      | error e => rw [hsub] at h; exact absurd h (by simp)
      | ok w =>
        obtain ⟨n2, fs2⟩ := w
        rw [hsub] at h
        dsimp only at h
        obtain ⟨ext1, h1⟩ := script_step_fs_append o ctx fs _ script n1 fs1 hs
        obtain ⟨ext2, h2⟩ := ih fs1 (some (full_name p name)) n2 fs2 hsub
        simp only [Except.ok.injEq, Prod.mk.injEq] at h
        exact ⟨ext1 ++ ext2, by rw [← h.2, h2, h1, List.append_assoc]⟩
  · intro fs p n fs' h
    simp only [process_commands, Except.ok.injEq, Prod.mk.injEq] at h
    exact ⟨[], by simp [h.2]⟩
  · intro chead ctail ihc ihcs fs p n fs' h
    simp only [process_commands] at h
    cases hc : process_command o ctx fs chead p with
    | error e => rw [hc] at h; exact absurd h (by simp)
    | ok v =>
      obtain ⟨n1, fs1⟩ := v
      rw [hc] at h
      dsimp only at h
      cases hcs : process_commands o ctx fs1 ctail p with
      | error e => rw [hcs] at h; exact absurd h (by simp)
      | ok w =>
        obtain ⟨n2, fs2⟩ := w
        rw [hcs] at h
        dsimp only at h
        obtain ⟨ext1, h1⟩ := ihc fs p n1 fs1 hc
        obtain ⟨ext2, h2⟩ := ihcs fs1 p n2 fs2 hcs
        simp only [Except.ok.injEq, Prod.mk.injEq] at h
        exact ⟨ext1 ++ ext2, by rw [← h.2, h2, h1, List.append_assoc]⟩

/-- A lint-mode context writing to the directory "out". -/
def lintCtx : ProcessCommandContext :=
  { out_dir := "out", is_dump := false, no_warnings := false }

/-- A dump-mode context writing to the directory "out". -/
def dumpCtx : ProcessCommandContext :=
  { out_dir := "out", is_dump := true, no_warnings := false }

/-- An oracle under which every analyzer invocation succeeds printing "x". -/
def okOracle : String → Except IoError String := fun _ => .ok "x"

/-- A root node named `build` bearing a shell script. -/
def buildCmd : Command :=
  .mk "build" (some { executor := "sh", source := "echo hi" }) []

/-- The output directory contents after materializing `buildCmd`. -/
def buildFS : FS := [("out/build.sh", "#!/bin/usr/env sh\necho hi")]

/-- The break-at-"Found " loop collects exactly the prefix of lines not
starting with "Found ", each with the path-prefix rewritten. -/
theorem ruff_valid_lines_eq (path : String) (ls : List String) :
    ruff_valid_lines path ls
      = (ls.takeWhile (fun l => ! rustStartsWith l "Found ")).map
          (fun l => rustReplace l (path ++ ":") "line ") := by
  induction ls with
  | nil => rfl
  | cons l rest ih =>
    simp only [ruff_valid_lines, List.takeWhile]
    cases h : rustStartsWith l "Found " <;> simp [h, ih]

/-- Claim C1, counterexample: the dispatch of `process_command` sends both
"nu" and "nushell" to the Catchall handler, not to the Nushell handler (the
match in main.rs has no `"nu" | "nushell"` arm, and the Nushell handler of
handlers.rs is distinct from Catchall — different extension and execute). -/
theorem claim_C1_counterexample :
    selectHandler "nu" = Handler.Catchall ∧ selectHandler "nushell" = Handler.Catchall ∧
    Handler.Catchall ≠ Handler.Nushell ∧
    Handler.file_extension Handler.Catchall ≠ Handler.file_extension Handler.Nushell := by
  decide

/-- Claim C1 (amended): handler selection is total over all executor strings
and maps, by case-sensitive exact match, "sh" and "bash" to the Shell handler,
"py" and "python" to the Python handler, "rb" and "ruby" to the Ruby handler,
and every other string — including "nu" and "nushell" — to the Catchall
handler; the Nushell handler is never selected. -/
theorem claim_C1_amended (e : String)
    (h : e ≠ "sh" ∧ e ≠ "bash" ∧ e ≠ "py" ∧ e ≠ "python" ∧ e ≠ "rb" ∧ e ≠ "ruby") :
    selectHandler "sh" = Handler.Shellcheck ∧ selectHandler "bash" = Handler.Shellcheck ∧
    selectHandler "py" = Handler.Ruff ∧ selectHandler "python" = Handler.Ruff ∧
    selectHandler "rb" = Handler.Rubocop ∧ selectHandler "ruby" = Handler.Rubocop ∧
    selectHandler e = Handler.Catchall ∧
    (∀ x : String, selectHandler x ≠ Handler.Nushell) := by
  obtain ⟨h1, h2, h3, h4, h5, h6⟩ := h
  refine ⟨by decide, by decide, by decide, by decide, by decide, by decide, ?_, ?_⟩
  · simp [selectHandler, h1, h2, h3, h4, h5, h6]
  · intro x
    unfold selectHandler
    split
    · simp
    · split
      · simp
      · split <;> simp

/-- Witness for the amended claim C1, at the executor "nushell". -/
theorem claim_C1_amended_witness :
    (("nushell" : String) ≠ "sh" ∧ ("nushell" : String) ≠ "bash" ∧
     ("nushell" : String) ≠ "py" ∧ ("nushell" : String) ≠ "python" ∧
     ("nushell" : String) ≠ "rb" ∧ ("nushell" : String) ≠ "ruby") ∧
    selectHandler "nushell" = Handler.Catchall :=
  ⟨by decide, (claim_C1_amended "nushell" (by decide)).2.2.2.2.2.2.1⟩

/-- Claim C6: the default content transform returns the script source
unchanged (Catchall, Ruff, Rubocop, Nushell), and the Shell handler's
transform prepends the shebang line built from the script's executor tag,
followed by a newline, to the unchanged source. -/
theorem claim_C6 (s : Script) :
    Handler.content .Catchall s = Except.ok s.source ∧
    Handler.content .Ruff s = Except.ok s.source ∧
    Handler.content .Rubocop s = Except.ok s.source ∧
    Handler.content .Nushell s = Except.ok s.source ∧
    Handler.content .Shellcheck s
      = Except.ok ("#!/bin/usr/env " ++ s.executor ++ "\n" ++ s.source) :=
  ⟨rfl, rfl, rfl, rfl, rfl⟩

/-- Claim C7: on any analyzer stdout, the Python handler trims it, processes
it line by line, rewrites every occurrence of `"<path>:"` to `"line "`,
keeps exactly the prefix of lines before the first line starting with
"Found " (that line and all later ones excluded), joins the kept lines with
newlines, trims, and returns the result as a Findings-kind lint result. -/
theorem claim_C7 (path stdout : String) :
    Handler.executeWith .Ruff path (Except.ok stdout)
      = Except.ok
          { message := rustTrim (String.intercalate "\n"
              (((rustLines (rustTrim stdout)).takeWhile
                  (fun l => ! rustStartsWith l "Found ")).map
                (fun l => rustReplace l (path ++ ":") "line "))),
            result_type := .Findings } := by
  simp only [Handler.executeWith, ruff_normalize, ruff_valid_lines_eq]
  rfl

/-- Claim C9: file-name derivation is not injective over full command names —
a root command "a_b" and a command "b" under parent "a" (full name "a b")
materialize to the same path, as do a Catchall-handled command "x.sh" and a
shell command "x"; walking such trees fails with an AlreadyExists collision
error although no full command name is duplicated. -/
theorem claim_C9 :
    (full_name none "a_b" = "a_b" ∧ full_name (some "a") "b" = "a b" ∧
      ("a_b" : String) ≠ "a b" ∧
      script_file_path "out" "a_b" (selectHandler "sh")
        = script_file_path "out" "a b" (selectHandler "sh")) ∧
    (("x.sh" : String) ≠ "x" ∧
      script_file_path "out" "x.sh" (selectHandler "zz")
        = script_file_path "out" "x" (selectHandler "sh")) ∧
    process_commands okOracle dumpCtx []
        [.mk "a_b" (some { executor := "sh", source := "u" }) [],
         .mk "a" none [.mk "b" (some { executor := "sh", source := "v" }) []]] none
      = Except.error (.ioErr (.alreadyExists "out/a_b.sh")) ∧
    process_commands okOracle dumpCtx []
        [.mk "x.sh" (some { executor := "zz", source := "u" }) [],
         .mk "x" (some { executor := "sh", source := "v" }) []] none
      = Except.error (.ioErr (.alreadyExists "out/x.sh")) := by
  decide

/-- A scriptless root node named `test`. -/
def testCmd : Command := .mk "test" none []

/-- Claim C2: in lint mode, a successful walk's findings count equals exactly
the number of script-bearing nodes whose handler's execute returned a
non-empty Findings-kind result (so Warning-kind results never count,
regardless of the suppress-warnings flag, and empty messages never count even
for Findings), and the running total over a traversal is monotonically
non-decreasing (a prefix of the forest never yields more than the whole). -/
theorem claim_C2 (o : String → Except IoError String) (ctx : ProcessCommandContext)
    (c : Command) (fs : FS) (p : Option String) (n : Nat) (fs' : FS)
    (xs ys : List Command) (m M : Nat) (gs1 gs2 : FS)
    (hd : ctx.is_dump = false)
    (hrun : process_command o ctx fs c p = Except.ok (n, fs'))
    (hpre : process_commands o ctx fs xs p = Except.ok (m, gs1))
    (hall : process_commands o ctx fs (xs ++ ys) p = Except.ok (M, gs2)) :
    n = spec_findings_count o ctx.out_dir p c ∧ m ≤ M :=
  ⟨process_command_count o ctx hd c fs p n fs' hrun,
   process_commands_prefix_le o ctx xs ys fs p m M gs1 gs2 hpre hall⟩

/-- Witness for claim C2: a lint-mode run over `build` (shell script, analyzer
output "x") plus a scriptless sibling, counting exactly one finding. -/
theorem claim_C2_witness :
    (lintCtx.is_dump = false ∧
     process_command okOracle lintCtx [] buildCmd none = Except.ok (1, buildFS) ∧
     process_commands okOracle lintCtx [] [buildCmd] none = Except.ok (1, buildFS) ∧
     process_commands okOracle lintCtx [] ([buildCmd] ++ [testCmd]) none
       = Except.ok (1, buildFS)) ∧
    (1 = spec_findings_count okOracle lintCtx.out_dir none buildCmd ∧ 1 ≤ 1) :=
  ⟨⟨by decide, by decide, by decide, by decide⟩,
   claim_C2 okOracle lintCtx buildCmd [] none 1 buildFS [buildCmd] [testCmd] 1 1 buildFS
     buildFS (by decide) (by decide) (by decide) (by decide)⟩

/-- Claim C8: the run exits non-zero exactly when the findings counter is
positive or a fatal error occurred — a zero count with no error exits zero; a
positive count n exits with the pluralized "n file(s) with lint failures."
message; any traversal error propagates as the exit error. -/
theorem claim_C8 (r : Except AnyhowError (Nat × FS)) :
    (main_result r = Except.ok () ↔ ∃ fs, r = Except.ok (0, fs)) ∧
    (∀ n fs, r = Except.ok (n, fs) → 0 < n →
      main_result r = Except.error (.msg (toString n ++ " file"
        ++ (if n = 1 then "" else "s") ++ " with lint failures."))) ∧
    (∀ e, r = Except.error e → main_result r = Except.error e) := by
  refine ⟨?_, ?_, ?_⟩
  · cases r with
    | error e => simp [main_result]
    | ok v =>
      obtain ⟨n, fs⟩ := v
      cases n with
      | zero => simp [main_result]
      | succ k => simp [main_result]
  · intro n fs hr hn
    subst hr
    simp only [main_result]
    rw [if_pos hn]
    rfl
  · intro e hr
    subst hr
    rfl

/-- Witness for claim C8: counts 1 and 2 produce the singular and plural
summary errors. -/
theorem claim_C8_witness :
    main_result (Except.ok (1, [])) = Except.error (.msg "1 file with lint failures.") ∧
    main_result (Except.ok (2, [])) = Except.error (.msg "2 files with lint failures.") := by
  constructor
  · exact ((claim_C8 (Except.ok (1, []))).2.1 1 [] rfl (by decide)).trans (by decide)
  · exact ((claim_C8 (Except.ok (2, []))).2.1 2 [] rfl (by decide)).trans (by decide)

/-- Walking a forest only appends to the filesystem. -/
theorem process_commands_fs_append (o : String → Except IoError String)
    (ctx : ProcessCommandContext) :
    ∀ cs : List Command, ∀ fs p n fs', process_commands o ctx fs cs p = Except.ok (n, fs') →
      ∃ ext, fs' = fs ++ ext := by
  intro cs
  induction cs with
  | nil =>
    intro fs p n fs' h
    simp only [process_commands, Except.ok.injEq, Prod.mk.injEq] at h
    exact ⟨[], by simp [h.2]⟩
  | cons chead ctail ih =>
    intro fs p n fs' h
    simp only [process_commands] at h
    cases hc : process_command o ctx fs chead p with
    | error e => rw [hc] at h; exact absurd h (by simp)
    | ok v =>
      obtain ⟨n1, fs1⟩ := v
      rw [hc] at h
      dsimp only at h
      cases hcs : process_commands o ctx fs1 ctail p with
      | error e => rw [hcs] at h; exact absurd h (by simp)
      | ok w =>
        obtain ⟨n2, fs2⟩ := w
        rw [hcs] at h
        dsimp only at h
        obtain ⟨ext1, h1⟩ := process_command_fs_append o ctx chead fs p n1 fs1 hc
        obtain ⟨ext2, h2⟩ := ih fs1 p n2 fs2 hcs
        simp only [Except.ok.injEq, Prod.mk.injEq] at h
        exact ⟨ext1 ++ ext2, by rw [← h.2, h2, h1, List.append_assoc]⟩

/-- Claim C3: a script-bearing node materializes to the path derived from its
full command name (spaces replaced by underscores, handler extension
appended); if a file already occupies that path, the walk fails with the
exclusive-creation AlreadyExists error — for the node and for any forest
starting with it, so the run aborts rather than overwriting — and on success
the file at the derived path, with the transformed content, is present in the
resulting filesystem. -/
theorem claim_C3 (o : String → Except IoError String) (ctx : ProcessCommandContext)
    (fs : FS) (parent : Option String) (name : String) (s : Script)
    (subs rest : List Command) :
    (fs.any (fun entry => entry.1
        = script_file_path ctx.out_dir (full_name parent name) (selectHandler s.executor))
          = true →
      process_command o ctx fs (.mk name (some s) subs) parent
        = Except.error (.ioErr (.alreadyExists
            (script_file_path ctx.out_dir (full_name parent name)
              (selectHandler s.executor)))) ∧
      process_commands o ctx fs (Command.mk name (some s) subs :: rest) parent
        = Except.error (.ioErr (.alreadyExists
            (script_file_path ctx.out_dir (full_name parent name)
              (selectHandler s.executor))))) ∧
    (∀ n fs', process_command o ctx fs (.mk name (some s) subs) parent = Except.ok (n, fs') →
      ∃ content, (selectHandler s.executor).content s = Except.ok content ∧
        (script_file_path ctx.out_dir (full_name parent name) (selectHandler s.executor),
          content) ∈ fs') := by
  constructor
  · intro hcol
    have hstep : script_step o ctx fs (full_name parent name) (some s)
        = Except.error (.ioErr (.alreadyExists
            (script_file_path ctx.out_dir (full_name parent name)
              (selectHandler s.executor)))) := by
      simp only [script_step, hcol, if_true]
    have hnode : process_command o ctx fs (.mk name (some s) subs) parent
        = Except.error (.ioErr (.alreadyExists
            (script_file_path ctx.out_dir (full_name parent name)
              (selectHandler s.executor)))) := by
      simp only [process_command, hstep]
    refine ⟨hnode, ?_⟩
    simp only [process_commands, hnode]
  · intro n fs' h
    simp only [process_command] at h
    cases hs : script_step o ctx fs (full_name parent name) (some s) with
    | error e => rw [hs] at h; exact absurd h (by simp)
    | ok v =>
      obtain ⟨n1, fs1⟩ := v
      rw [hs] at h
      dsimp only at h
      obtain ⟨content, hc, hfs1⟩ := script_step_some_ok o ctx fs _ s n1 fs1 hs
      cases hsub : process_commands o ctx fs1 subs (some (full_name parent name)) with
      | error e => rw [hsub] at h; exact absurd h (by simp)
      | ok w =>
        obtain ⟨n2, fs2⟩ := w
        rw [hsub] at h
        dsimp only at h
        obtain ⟨ext, hext⟩ := process_commands_fs_append o ctx subs fs1
          (some (full_name parent name)) n2 fs2 hsub
        simp only [Except.ok.injEq, Prod.mk.injEq] at h
        refine ⟨content, hc, ?_⟩
        rw [← h.2, hext, hfs1]
        exact List.mem_append_left _ (List.mem_append_right _ (by simp))

/-- Witness for claim C3: dumping `build` aborts when "out/build.sh" already
exists, and succeeds into a fresh directory, placing the shebang-prefixed file
there. -/
theorem claim_C3_witness :
    (([(("out/build.sh" : String), ("z" : String))] : FS).any (fun entry => entry.1
        = script_file_path dumpCtx.out_dir (full_name none "build")
            (selectHandler "sh")) = true) ∧
    process_command okOracle dumpCtx [("out/build.sh", "z")]
        (.mk "build" (some { executor := "sh", source := "echo hi" }) []) none
      = Except.error (.ioErr (.alreadyExists
          (script_file_path dumpCtx.out_dir (full_name none "build")
            (selectHandler "sh")))) ∧
    (∃ content, (selectHandler "sh").content { executor := "sh", source := "echo hi" }
        = Except.ok content ∧
      (script_file_path dumpCtx.out_dir (full_name none "build") (selectHandler "sh"),
        content) ∈ buildFS) :=
  ⟨by decide,
   ((claim_C3 okOracle dumpCtx [("out/build.sh", "z")] none "build"
       { executor := "sh", source := "echo hi" } [] []).1 (by decide)).1,
   (claim_C3 okOracle dumpCtx [] none "build"
       { executor := "sh", source := "echo hi" } [] []).2 0 buildFS (by decide)⟩

/-- Claim C4: in lint mode, when the analyzer binary is missing (execute fails
NotFound) the walk fails with the distinguished message naming the handler —
and this error is the result of processing any forest starting with that node
and any set of descendants, i.e. the run aborts there — while any other
execute failure propagates as a generic (io-error-wrapped) fatal error. -/
theorem claim_C4 (o1 o2 : String → Except IoError String) (ctx : ProcessCommandContext)
    (fs : FS) (parent : Option String) (name : String) (s : Script)
    (subs rest : List Command) (e2 : IoError)
    (hd : ctx.is_dump = false)
    (hh : selectHandler s.executor ≠ Handler.Catchall)
    (hfree : fs.any (fun entry => entry.1
        = script_file_path ctx.out_dir (full_name parent name)
            (selectHandler s.executor)) = false)
    (hnf : o1 (script_file_path ctx.out_dir (full_name parent name)
        (selectHandler s.executor)) = Except.error .notFound)
    (hne2 : e2 ≠ IoError.notFound)
    (hgen : o2 (script_file_path ctx.out_dir (full_name parent name)
        (selectHandler s.executor)) = Except.error e2) :
    process_command o1 ctx fs (.mk name (some s) subs) parent
      = Except.error (.msg ("executable for " ++ (selectHandler s.executor).display
          ++ " not found in $PATH")) ∧
    process_commands o1 ctx fs (Command.mk name (some s) subs :: rest) parent
      = Except.error (.msg ("executable for " ++ (selectHandler s.executor).display
          ++ " not found in $PATH")) ∧
    process_command o2 ctx fs (.mk name (some s) subs) parent
      = Except.error (.ioErr e2) := by
  have key : ∀ (o : String → Except IoError String) (e : IoError),
      o (script_file_path ctx.out_dir (full_name parent name)
          (selectHandler s.executor)) = Except.error e →
      script_step o ctx fs (full_name parent name) (some s)
        = match e with
          | .notFound => Except.error (.msg ("executable for "
              ++ (selectHandler s.executor).display ++ " not found in $PATH"))
          | e => Except.error (.ioErr e) := by
    intro o e he
    simp only [script_step, hfree, Bool.false_eq_true, if_false, hd]
    obtain ⟨c, hc⟩ := content_isOk (selectHandler s.executor) s
    rw [hc]
    dsimp only
    rw [he, executeWith_error _ hh _ e]
    cases e <;> rfl
  have k1 := key o1 .notFound hnf
  dsimp only at k1
  have k2 : script_step o2 ctx fs (full_name parent name) (some s)
      = Except.error (.ioErr e2) := by
    have k := key o2 e2 hgen
    cases e2 with
    | notFound => exact absurd rfl hne2
    | alreadyExists p => exact k
    | other m => exact k
  have hnode1 : process_command o1 ctx fs (.mk name (some s) subs) parent
      = Except.error (.msg ("executable for " ++ (selectHandler s.executor).display
          ++ " not found in $PATH")) := by
    simp only [process_command, k1]
  refine ⟨hnode1, ?_, ?_⟩
  · simp only [process_commands, hnode1]
  · simp only [process_command, k2]

/-- Witness for claim C4: a Python node whose `ruff` binary is absent aborts
with the handler-naming message; a generic spawn failure propagates as-is. -/
theorem claim_C4_witness :
    (lintCtx.is_dump = false ∧
     selectHandler "py" ≠ Handler.Catchall ∧
     (([] : FS).any (fun entry => entry.1
        = script_file_path lintCtx.out_dir (full_name none "build")
            (selectHandler "py")) = false)) ∧
    process_command (fun _ => Except.error .notFound) lintCtx []
        (.mk "build" (some { executor := "py", source := "p" }) []) none
      = Except.error (.msg ("executable for " ++ (selectHandler "py").display
          ++ " not found in $PATH")) ∧
    process_command (fun _ => Except.error (.other "boom")) lintCtx []
        (.mk "build" (some { executor := "py", source := "p" }) []) none
      = Except.error (.ioErr (.other "boom")) :=
  ⟨⟨by decide, by decide, by decide⟩,
   (claim_C4 (fun _ => Except.error .notFound) (fun _ => Except.error (.other "boom"))
      lintCtx [] none "build" { executor := "py", source := "p" } [] [] (.other "boom")
      (by decide) (by decide) (by decide) (by decide) (by decide) (by decide)).1,
   (claim_C4 (fun _ => Except.error .notFound) (fun _ => Except.error (.other "boom"))
      lintCtx [] none "build" { executor := "py", source := "p" } [] [] (.other "boom")
      (by decide) (by decide) (by decide) (by decide) (by decide) (by decide)).2.2⟩

/-- Claim C5: a node with an unrecognized executor gets the Catchall handler:
empty file extension, an execute that consults no external process outcome and
never fails, always returning the fixed Warning (never a Findings), and in
lint mode such a node contributes 0 to the findings count while still
materializing its file (with unchanged source). -/
theorem claim_C5 (e src : String) (o : String → Except IoError String)
    (ctx : ProcessCommandContext) (fs : FS) (parent : Option String) (name : String)
    (he : selectHandler e = Handler.Catchall)
    (hd : ctx.is_dump = false)
    (hfree : fs.any (fun entry => entry.1
        = script_file_path ctx.out_dir (full_name parent name) (selectHandler e)) = false) :
    (selectHandler e).file_extension = "" ∧
    (∀ (path' : String) (out : Except IoError String),
      (selectHandler e).executeWith path' out
        = Except.ok { message := "no linter found for target", result_type := .Warning }) ∧
    process_command o ctx fs (.mk name (some { executor := e, source := src }) []) parent
      = Except.ok (0, fs ++ [(script_file_path ctx.out_dir (full_name parent name)
          (selectHandler e), src)]) := by
  refine ⟨by rw [he]; rfl, fun path' out => by rw [he]; rfl, ?_⟩
  rw [he] at hfree ⊢
  simp only [process_command, script_step, he, hfree, Bool.false_eq_true, if_false,
    Handler.content, Handler.executeWith, LintResult.warning, hd, process_commands]
  rfl

/-- Witness for claim C5: a node with the unrecognized executor "rs" in a
lint run — extensionless file, fixed warning, zero findings. -/
theorem claim_C5_witness :
    (selectHandler "rs" = Handler.Catchall ∧
     lintCtx.is_dump = false ∧
     (([] : FS).any (fun entry => entry.1
        = script_file_path lintCtx.out_dir (full_name none "build")
            (selectHandler "rs")) = false)) ∧
    (selectHandler "rs").file_extension = "" ∧
    process_command okOracle lintCtx []
        (.mk "build" (some { executor := "rs", source := "fn" }) []) none
      = Except.ok (0, [] ++ [(script_file_path lintCtx.out_dir (full_name none "build")
          (selectHandler "rs"), "fn")]) :=
  ⟨⟨by decide, by decide, by decide⟩,
   (claim_C5 "rs" "fn" okOracle lintCtx [] none "build"
      (by decide) (by decide) (by decide)).1,
   (claim_C5 "rs" "fn" okOracle lintCtx [] none "build"
      (by decide) (by decide) (by decide)).2.2⟩

/-- Claim C10: for every handler variant and every script, the content
transform returns Ok — never an error — although its signature permits one;
hence in dump mode (where only materialization runs) any failure of the walk
is a file-creation collision, never a content-transform failure. -/
theorem claim_C10 (h : Handler) (s : Script) (o : String → Except IoError String)
    (ctx : ProcessCommandContext) (hdump : ctx.is_dump = true) :
    (∃ c, h.content s = Except.ok c) ∧
    (∀ e, h.content s ≠ Except.error e) ∧
    (∀ (c : Command) (fs : FS) (p : Option String) (e : AnyhowError),
      process_command o ctx fs c p = Except.error e →
      ∃ path, e = AnyhowError.ioErr (IoError.alreadyExists path)) := by
  refine ⟨content_isOk h s, ?_, process_command_dump_error o ctx hdump⟩
  intro e he
  obtain ⟨c, hc⟩ := content_isOk h s
  rw [hc] at he
  exact absurd he (by simp)

/-- Witness for claim C10: the Shellcheck handler's content on a concrete
script, in a dump run. -/
theorem claim_C10_witness :
    dumpCtx.is_dump = true ∧
    (∃ c, Handler.content .Shellcheck { executor := "sh", source := "x" } = Except.ok c) :=
  ⟨by decide,
   (claim_C10 .Shellcheck { executor := "sh", source := "x" } okOracle dumpCtx
      (by decide)).1⟩

end Masklint
